import Mathlib

/-!
Shallow embedding of the two-limb fallback engine of the 128-bit integer
library in src/int128.h (types uint128 and int128, little-endian layout,
the ABSL_HAVE_INTRINSIC_INT128 macro not defined).

Modelling conventions:
- a 64-bit unsigned limb is a Nat, with every uint64 wraparound written as
  an explicit mod 2 ^ 64 (wrap64);
- the signed high limb of int128 (an int64_t in the source) is an Int in
  the range [-2^63, 2^63); int64 overflow, where the source relies on the
  universal two's-complement behaviour, is written as an explicit
  truncation (sext64);
- uint64 bitwise complement of x is 2 ^ 64 - 1 - x (not64);
- the C++ arithmetic right shift of an int64 by s is floor division by
  2 ^ s; Lean's Int division is Euclidean division, which agrees with
  floor division whenever the divisor is positive, so it is written h / 2 ^ s;
- bitwise or / and / shifts on limbs keep Nat's native |||, &&&, <<<, >>>.
-/

namespace Int128Spec

/-- Fallback representation of absl::uint128: two 64-bit limbs
(src/int128.h, storage near line 450); the represented value is
hi * 2 ^ 64 + lo. -/
structure uint128 where
  hi : Nat
  lo : Nat
  deriving DecidableEq, Repr

/-- Fallback representation of absl::int128: an int64_t high limb and a
uint64_t low limb (src/int128.h, int128 class); the represented value is
hi * 2 ^ 64 + lo. -/
structure int128 where
  hi : Int
  lo : Nat
  deriving DecidableEq, Repr

/-- A uint128 state is a pair of genuine 64-bit limbs. -/
abbrev UValid (v : uint128) : Prop := v.hi < 2 ^ 64 ∧ v.lo < 2 ^ 64

/-- An int128 state has an int64 high limb and a uint64 low limb. -/
abbrev IValid (v : int128) : Prop :=
  -(2 ^ 63) ≤ v.hi ∧ v.hi < 2 ^ 63 ∧ v.lo < 2 ^ 64

/-- Uint128Low64 (src/int128.h line 852). -/
def Uint128Low64 (v : uint128) : Nat := v.lo

/-- Uint128High64 (src/int128.h line 854). -/
def Uint128High64 (v : uint128) : Nat := v.hi

/-- MakeUint128 (src/int128.h line 768). -/
def MakeUint128 (high low : Nat) : uint128 := ⟨high, low⟩

/-- Int128Low64 (src/int128.h line 1696). -/
def Int128Low64 (v : int128) : Nat := v.lo

/-- Int128High64 (src/int128.h line 1698). -/
def Int128High64 (v : int128) : Int := v.hi

/-- MakeInt128 (src/int128.h line 1288). -/
def MakeInt128 (high : Int) (low : Nat) : int128 := ⟨high, low⟩

/-- The represented value of a uint128: hi * 2^64 + lo. -/
def uval (v : uint128) : Nat := v.hi * 2 ^ 64 + v.lo

/-- The represented value of an int128: hi * 2^64 + lo with hi signed. -/
def ival (v : int128) : Int := v.hi * 2 ^ 64 + (v.lo : Int)

/-- Wraparound of uint64 arithmetic: reduction mod 2^64. -/
def wrap64 (x : Nat) : Nat := x % 2 ^ 64

/-- Bitwise complement of a 64-bit word: for x < 2^64 the complement of x
is exactly 2^64 - 1 - x. -/
def not64 (x : Nat) : Nat := 2 ^ 64 - 1 - x

/-- Truncation of an integer to the int64 two's-complement range; used
where the source performs int64 arithmetic whose result is reduced to 64
bits by the machine. -/
def sext64 (x : Int) : Int := (x + 2 ^ 63) % 2 ^ 64 - 2 ^ 63

/-- static_cast from uint64_t to int64_t, as performed by
int128_internal::BitCastToSigned (src/int128.h lines 1382-1390): the
two's-complement reinterpretation of the 64-bit pattern. -/
def castToSigned64 (v : Nat) : Int :=
  if 2 ^ 63 ≤ v then (v : Int) - 2 ^ 64 else (v : Int)

/-- static_cast from int64_t to uint64_t: the defined modular conversion
of C++, i.e. the value mod 2^64. -/
def castToUnsigned64 (h : Int) : Nat := (h % 2 ^ 64).toNat

/-- int128_internal::AddResult (src/int128.h lines 1181-1186): add a carry
to the high limb when the computed low sum is less than the original low
addend. -/
def AddResult (result lhs : uint128) : uint128 :=
  if result.lo < lhs.lo then MakeUint128 (wrap64 (result.hi + 1)) result.lo
  else result

/-- uint128 operator+ fallback (src/int128.h lines 1190-1200): limb-wise
wrapping addition followed by the carry fixup. -/
def uadd (lhs rhs : uint128) : uint128 :=
  AddResult
    (MakeUint128 (wrap64 (lhs.hi + rhs.hi)) (wrap64 (lhs.lo + rhs.lo))) lhs

/-- int128_internal::SubstructResult (src/int128.h lines 1204-1209):
subtract a borrow from the high limb when the low minuend is less than the
low subtrahend; the uint64 decrement hi - 1 wraps, i.e. it is
hi + 2^64 - 1 mod 2^64. -/
def SubstructResult (result lhs rhs : uint128) : uint128 :=
  if lhs.lo < rhs.lo then
    MakeUint128 (wrap64 (result.hi + 2 ^ 64 - 1)) result.lo
  else result

/-- uint128 operator- fallback (src/int128.h lines 1213-1223): limb-wise
wrapping subtraction (x - y on uint64 limbs with y < 2^64 is
x + 2^64 - y mod 2^64) followed by the borrow fixup. -/
def usub (lhs rhs : uint128) : uint128 :=
  SubstructResult
    (MakeUint128 (wrap64 (lhs.hi + 2 ^ 64 - rhs.hi))
      (wrap64 (lhs.lo + 2 ^ 64 - rhs.lo))) lhs rhs

/-- uint128 operator<< fallback (src/int128.h lines 1151-1163); the shift
amount is a Nat since negative amounts are undefined behaviour. -/
def ushl (lhs : uint128) (amount : Nat) : uint128 :=
  if 64 ≤ amount then MakeUint128 (wrap64 (lhs.lo <<< (amount - 64))) 0
  else if amount = 0 then lhs
  else
    MakeUint128 (wrap64 (lhs.hi <<< amount) ||| (lhs.lo >>> (64 - amount)))
      (wrap64 (lhs.lo <<< amount))

/-- uint128 operator>> fallback (src/int128.h lines 1165-1177). -/
def ushr (lhs : uint128) (amount : Nat) : uint128 :=
  if 64 ≤ amount then MakeUint128 0 (lhs.hi >>> (amount - 64))
  else if amount = 0 then lhs
  else
    MakeUint128 (lhs.hi >>> amount)
      ((lhs.lo >>> amount) ||| wrap64 (lhs.hi <<< (64 - amount)))

/-- uint128 operator* fallback (src/int128.h lines 1237-1248): schoolbook
decomposition of the low limbs into 32-bit halves, cross terms accumulated
into the high limb with truncation; uint128 of a uint64 x is (0, x). -/
def umul (lhs rhs : uint128) : uint128 :=
  let a32 := lhs.lo >>> 32
  let a00 := lhs.lo &&& 0xffffffff
  let b32 := rhs.lo >>> 32
  let b00 := rhs.lo &&& 0xffffffff
  let result :=
    MakeUint128 (wrap64 (lhs.hi * rhs.lo + lhs.lo * rhs.hi + a32 * b32))
      (wrap64 (a00 * b00))
  let result2 := uadd result (ushl (MakeUint128 0 (wrap64 (a32 * b00))) 32)
  uadd result2 (ushl (MakeUint128 0 (wrap64 (a00 * b32))) 32)

/-- uint128 unary operator- fallback (src/int128.h lines 1076-1084):
two's-complement negate, ~hi plus one exactly when the low limb is zero,
and ~lo + 1, all in wrapping uint64 arithmetic. -/
def uneg (val : uint128) : uint128 :=
  MakeUint128 (wrap64 (not64 val.hi + (if val.lo = 0 then 1 else 0)))
    (wrap64 (not64 val.lo + 1))

/-- uint128 operator~ fallback (src/int128.h lines 1096-1102). -/
def unot (val : uint128) : uint128 := MakeUint128 (not64 val.hi) (not64 val.lo)

/-- uint128 conversion constructor from int128 (src/int128.h lines
887-888): the low limb is copied and the high limb is cast to uint64_t. -/
def uint128OfInt128 (v : int128) : uint128 :=
  MakeUint128 (castToUnsigned64 v.hi) v.lo

/-- int128 conversion constructor from uint128 (src/int128.h lines
1717-1718): the low limb is copied and the high limb is cast to
int64_t. -/
def int128OfUint128 (v : uint128) : int128 :=
  MakeInt128 (castToSigned64 v.hi) v.lo

/-- uint128 explicit conversion operator to unsigned long long
(src/int128.h lines 976-978): returns the low limb. -/
def uint128ToUInt64 (v : uint128) : Nat := v.lo

/-- int128 explicit conversion operator to unsigned long long
(src/int128.h lines 1807-1809): returns the low limb cast to uint64. -/
def int128ToUInt64 (v : int128) : Nat := v.lo

/-- int128 unary operator- (src/int128.h lines 1888-1891): the int64
complement of the high limb (~h is -h - 1) plus one exactly when the low
limb is zero, truncated to int64, and ~lo + 1 on the wrapping uint64 low
limb. -/
def ineg (v : int128) : int128 :=
  MakeInt128 (sext64 (-v.hi - 1 + (if v.lo = 0 then 1 else 0)))
    (wrap64 (not64 v.lo + 1))

/-- Int128Min (src/int128.h lines 712-714): int128 with the minimal int64
high limb and a zero low limb. -/
def Int128Min : int128 := MakeInt128 (-(2 ^ 63)) 0

/-- int128 operator< (src/int128.h lines 1852-1856): high limbs compared
as signed, low limbs as unsigned, in that priority order. -/
def ilt (lhs rhs : int128) : Bool :=
  if lhs.hi = rhs.hi then decide (lhs.lo < rhs.lo)
  else decide (lhs.hi < rhs.hi)

/-- Arithmetic right shift of an int64 value by s bits: floor division by
2 ^ s, written with Int's Euclidean division, which agrees with floor
division for a positive divisor. -/
def sar64 (h : Int) (s : Nat) : Int := h / 2 ^ s

/-- int128 operator>> fallback (src/int128.h lines 2001-2025), with a Nat
shift amount (negative amounts are undefined behaviour); band by band:
amount 0 returns the input, amounts below 63 shift both limbs, amount 63
composes two sub-64 shifts (h << 1 on an int64 is the truncation of 2h),
amounts of 127 and above produce pure sign fill, and amounts in [64, 127)
move the sign-filled high limb into the low limb. -/
def ishr (lhs : int128) (amount : Nat) : int128 :=
  if amount = 0 then lhs
  else if amount < 63 then
    MakeInt128 (sar64 lhs.hi amount)
      ((lhs.lo >>> amount) |||
        wrap64 (castToUnsigned64 lhs.hi <<< (64 - amount)))
  else if amount = 63 then
    MakeInt128 (sar64 (sar64 lhs.hi 32) 31)
      (castToUnsigned64 (sext64 (2 * lhs.hi)) ||| ((lhs.lo >>> 32) >>> 31))
  else if 127 ≤ amount then
    MakeInt128 (sar64 (sar64 lhs.hi 32) 31)
      (castToUnsigned64 (sar64 (sar64 lhs.hi 32) 31))
  else
    MakeInt128 (sar64 (sar64 lhs.hi 32) 31)
      (castToUnsigned64 (sar64 lhs.hi (amount - 64)))

/-- The debug assertion guarding the signed shift operators
(src/int128.h lines 1978 and 2003): amount >= 0 && amount < 127. -/
def signedShiftAssert (amount : Int) : Bool :=
  decide (0 ≤ amount) && decide (amount < 127)

/- ------------------------------------------------------------------ -/
/- Theorems                                                            -/
/- ------------------------------------------------------------------ -/

/-- C9: for every valid uint128 a, a - a = 0, a + (-a) = 0 and
~(~a) = a, with unary minus the two's-complement negate of the source. -/
theorem c9_unsigned_algebra (a : uint128) (h : UValid a) :
    usub a a = MakeUint128 0 0 ∧ uadd a (uneg a) = MakeUint128 0 0 ∧
      unot (unot a) = a := by
  obtain ⟨ah, al⟩ := a
  obtain ⟨h1, h2⟩ := h
  replace h1 : ah < 2 ^ 64 := h1
  replace h2 : al < 2 ^ 64 := h2
  refine ⟨?_, ?_, ?_⟩
  · simp only [usub, SubstructResult, MakeUint128, wrap64]
    rw [if_neg (lt_irrefl _)]
    simp only [uint128.mk.injEq]
    omega
  · simp only [uadd, uneg, AddResult, MakeUint128, wrap64, not64,
      uint128.mk.injEq]
    split <;> split <;> simp only [uint128.mk.injEq] <;> omega
  · simp only [unot, MakeUint128, not64, uint128.mk.injEq]
    omega

/-- Witness for C9 at a concrete valid input. -/
theorem c9_unsigned_algebra_witness :
    UValid (uint128.mk 7 0) ∧
      (usub (uint128.mk 7 0) (uint128.mk 7 0) = MakeUint128 0 0 ∧
        uadd (uint128.mk 7 0) (uneg (uint128.mk 7 0)) = MakeUint128 0 0 ∧
        unot (unot (uint128.mk 7 0)) = uint128.mk 7 0) :=
  ⟨by decide, c9_unsigned_algebra (uint128.mk 7 0) (by decide)⟩

/-- C1: for valid uint128 values the fallback addition and subtraction
realise the represented values mod 2^128, with the carry and borrow fixups
of the source applied to the high limb exactly under the documented low
limb comparisons. -/
theorem c1_add_sub_mod (a b : uint128) (ha : UValid a) (hb : UValid b) :
    uval (uadd a b) = (uval a + uval b) % 2 ^ 128 ∧
      (uval (usub a b) : Int) = ((uval a : Int) - (uval b : Int)) % 2 ^ 128 ∧
      (wrap64 (a.lo + b.lo) < a.lo ↔ 2 ^ 64 ≤ a.lo + b.lo) ∧
      (uadd a b).hi =
        wrap64 (wrap64 (a.hi + b.hi) +
          (if wrap64 (a.lo + b.lo) < a.lo then 1 else 0)) ∧
      (usub a b).hi =
        wrap64 (wrap64 (a.hi + 2 ^ 64 - b.hi) +
          (if a.lo < b.lo then 2 ^ 64 - 1 else 0)) := by
  obtain ⟨ah, al⟩ := a
  obtain ⟨bh, bl⟩ := b
  obtain ⟨ha1, ha2⟩ := ha
  obtain ⟨hb1, hb2⟩ := hb
  replace ha1 : ah < 2 ^ 64 := ha1
  replace ha2 : al < 2 ^ 64 := ha2
  replace hb1 : bh < 2 ^ 64 := hb1
  replace hb2 : bl < 2 ^ 64 := hb2
  refine ⟨?_, ?_, ?_, ?_, ?_⟩
  · simp only [uadd, AddResult, MakeUint128, wrap64, uval]
    split <;> dsimp only <;> omega
  · simp only [usub, SubstructResult, MakeUint128, wrap64, uval]
    split <;> dsimp only <;> push_cast <;> omega
  · simp only [wrap64]
    omega
  · simp only [uadd, AddResult, MakeUint128, wrap64]
    split <;> dsimp only <;> omega
  · simp only [usub, SubstructResult, MakeUint128, wrap64]
    split <;> dsimp only <;> omega

/-- Witness for C1 at a concrete pair of valid inputs that carries and
borrows. -/
theorem c1_add_sub_mod_witness :
    UValid (uint128.mk 1 18446744073709551615) ∧ UValid (uint128.mk 0 5) ∧
      (uval (uadd (uint128.mk 1 18446744073709551615) (uint128.mk 0 5)) =
          (uval (uint128.mk 1 18446744073709551615) +
            uval (uint128.mk 0 5)) % 2 ^ 128 ∧
        (uval (usub (uint128.mk 1 18446744073709551615) (uint128.mk 0 5)) :
            Int) =
          ((uval (uint128.mk 1 18446744073709551615) : Int) -
            (uval (uint128.mk 0 5) : Int)) % 2 ^ 128 ∧
        (wrap64 ((uint128.mk 1 18446744073709551615).lo +
            (uint128.mk 0 5).lo) < (uint128.mk 1 18446744073709551615).lo ↔
          2 ^ 64 ≤ (uint128.mk 1 18446744073709551615).lo +
            (uint128.mk 0 5).lo) ∧
        (uadd (uint128.mk 1 18446744073709551615) (uint128.mk 0 5)).hi =
          wrap64 (wrap64 ((uint128.mk 1 18446744073709551615).hi +
            (uint128.mk 0 5).hi) +
            (if wrap64 ((uint128.mk 1 18446744073709551615).lo +
                (uint128.mk 0 5).lo) <
                (uint128.mk 1 18446744073709551615).lo then 1 else 0)) ∧
        (usub (uint128.mk 1 18446744073709551615) (uint128.mk 0 5)).hi =
          wrap64 (wrap64 ((uint128.mk 1 18446744073709551615).hi + 2 ^ 64 -
            (uint128.mk 0 5).hi) +
            (if (uint128.mk 1 18446744073709551615).lo <
                (uint128.mk 0 5).lo then 2 ^ 64 - 1 else 0))) :=
  ⟨by decide, by decide,
    c1_add_sub_mod (uint128.mk 1 18446744073709551615) (uint128.mk 0 5)
      (by decide) (by decide)⟩

/-- C5: unsigned shifts by zero are the identity, and a left shift by an
amount in [64, 128) lands the low limb (shifted by amount - 64, as a
uint64) in the high limb with a zero low limb; in particular shifting left
by exactly 64 moves the low limb to the high limb. -/
theorem c5_uint_shift_edges (a : uint128) (n : Nat) (h : UValid a)
    (h64 : 64 ≤ n) (h128 : n < 128) :
    ushl a 0 = a ∧ ushr a 0 = a ∧
      (ushl a n).hi = wrap64 (a.lo * 2 ^ (n - 64)) ∧ (ushl a n).lo = 0 ∧
      ushl a 64 = MakeUint128 a.lo 0 := by
  obtain ⟨ah, al⟩ := a
  obtain ⟨h1, h2⟩ := h
  replace h1 : ah < 2 ^ 64 := h1
  replace h2 : al < 2 ^ 64 := h2
  refine ⟨rfl, rfl, ?_, ?_, ?_⟩
  · simp only [ushl, if_pos h64, MakeUint128, wrap64, Nat.shiftLeft_eq]
  · simp only [ushl, if_pos h64, MakeUint128]
  · simp only [ushl, MakeUint128, wrap64, Nat.shiftLeft_eq]
    norm_num [uint128.mk.injEq]
    omega

/-- Witness for C5 at a concrete valid input and amount 65. -/
theorem c5_uint_shift_edges_witness :
    UValid (uint128.mk 3 5) ∧ 64 ≤ 65 ∧ 65 < 128 ∧
      (ushl (uint128.mk 3 5) 0 = uint128.mk 3 5 ∧
        ushr (uint128.mk 3 5) 0 = uint128.mk 3 5 ∧
        (ushl (uint128.mk 3 5) 65).hi =
          wrap64 ((uint128.mk 3 5).lo * 2 ^ (65 - 64)) ∧
        (ushl (uint128.mk 3 5) 65).lo = 0 ∧
        ushl (uint128.mk 3 5) 64 = MakeUint128 (uint128.mk 3 5).lo 0) :=
  ⟨by decide, by decide, by decide,
    c5_uint_shift_edges (uint128.mk 3 5) 65 (by decide) (by decide)
      (by decide)⟩

/-- C6: the uint128 and int128 conversion constructors are bit-preserving
reinterpretations, so converting twice is the identity in both
directions. -/
theorem c6_roundtrip_reinterpret :
    (∀ x : int128, IValid x → int128OfUint128 (uint128OfInt128 x) = x) ∧
      (∀ y : uint128, UValid y → uint128OfInt128 (int128OfUint128 y) = y) := by
  constructor
  · intro x hx
    obtain ⟨xh, xl⟩ := x
    obtain ⟨h1, h2, h3⟩ := hx
    replace h1 : -(2 ^ 63) ≤ xh := h1
    replace h2 : xh < 2 ^ 63 := h2
    have hcast : castToSigned64 (castToUnsigned64 xh) = xh := by
      simp only [castToSigned64, castToUnsigned64]
      split <;> omega
    simp only [int128OfUint128, uint128OfInt128, MakeUint128, MakeInt128,
      hcast]
  · intro y hy
    obtain ⟨yh, yl⟩ := y
    obtain ⟨h1, h2⟩ := hy
    replace h1 : yh < 2 ^ 64 := h1
    have hcast : castToUnsigned64 (castToSigned64 yh) = yh := by
      simp only [castToSigned64, castToUnsigned64]
      split <;> omega
    simp only [int128OfUint128, uint128OfInt128, MakeUint128, MakeInt128,
      hcast]

/-- Witness for C6 at concrete valid inputs on both sides. -/
theorem c6_roundtrip_reinterpret_witness :
    IValid (int128.mk (-5) 7) ∧ UValid (uint128.mk 18446744073709551615 9) ∧
      int128OfUint128 (uint128OfInt128 (int128.mk (-5) 7)) =
        int128.mk (-5) 7 ∧
      uint128OfInt128 (int128OfUint128 (uint128.mk 18446744073709551615 9)) =
        uint128.mk 18446744073709551615 9 :=
  ⟨by decide, by decide,
    c6_roundtrip_reinterpret.1 (int128.mk (-5) 7) (by decide),
    c6_roundtrip_reinterpret.2 (uint128.mk 18446744073709551615 9)
      (by decide)⟩

/-- C7: the int128 less-than operator compares the high limbs as signed
and the low limbs as unsigned in that priority order, and this agrees
with the order of the represented values hi * 2^64 + lo. -/
theorem c7_signed_lt_agrees (a b : int128) (ha : IValid a) (hb : IValid b) :
    (ilt a b = true ↔ ival a < ival b) ∧
      ilt a b =
        (if a.hi = b.hi then decide (a.lo < b.lo)
         else decide (a.hi < b.hi)) := by
  obtain ⟨ah, al⟩ := a
  obtain ⟨bh, bl⟩ := b
  obtain ⟨ha1, ha2, ha3⟩ := ha
  obtain ⟨hb1, hb2, hb3⟩ := hb
  replace ha3 : al < 2 ^ 64 := ha3
  replace hb3 : bl < 2 ^ 64 := hb3
  refine ⟨?_, rfl⟩
  simp only [ilt, ival]
  split <;> simp only [decide_eq_true_eq] <;> omega

/-- Witness for C7 at a concrete pair with distinct high limbs. -/
theorem c7_signed_lt_agrees_witness :
    IValid (int128.mk (-1) 18446744073709551615) ∧ IValid (int128.mk 0 0) ∧
      ((ilt (int128.mk (-1) 18446744073709551615) (int128.mk 0 0) = true ↔
          ival (int128.mk (-1) 18446744073709551615) <
            ival (int128.mk 0 0)) ∧
        ilt (int128.mk (-1) 18446744073709551615) (int128.mk 0 0) =
          (if (int128.mk (-1) 18446744073709551615).hi =
              (int128.mk 0 0).hi then
            decide ((int128.mk (-1) 18446744073709551615).lo <
              (int128.mk 0 0).lo)
           else decide ((int128.mk (-1) 18446744073709551615).hi <
              (int128.mk 0 0).hi))) :=
  ⟨by decide, by decide,
    c7_signed_lt_agrees (int128.mk (-1) 18446744073709551615)
      (int128.mk 0 0) (by decide) (by decide)⟩

/-- C8: explicit conversion to a native 64-bit unsigned integer truncates
to the low limb, which is the represented value reduced mod 2^64, for
both the unsigned and the signed type; in particular converting
MakeUint128 0xFFFFFFFFFFFFFFFF 1 gives 1. -/
theorem c8_narrowing_truncates (v : uint128) (w : int128) (hv : UValid v)
    (hw : IValid w) :
    uint128ToUInt64 v = uval v % 2 ^ 64 ∧
      (uint128ToUInt64 v : Int) = (uval v : Int) % 2 ^ 64 ∧
      (int128ToUInt64 w : Int) = ival w % 2 ^ 64 ∧
      uint128ToUInt64 (MakeUint128 18446744073709551615 1) = 1 := by
  obtain ⟨vh, vl⟩ := v
  obtain ⟨wh, wl⟩ := w
  obtain ⟨h1, h2⟩ := hv
  obtain ⟨g1, g2, g3⟩ := hw
  replace h2 : vl < 2 ^ 64 := h2
  replace g3 : wl < 2 ^ 64 := g3
  refine ⟨?_, ?_, ?_, rfl⟩
  · simp only [uint128ToUInt64, uval]
    omega
  · simp only [uint128ToUInt64, uval]
    push_cast
    omega
  · simp only [int128ToUInt64, ival]
    omega

/-- Witness for C8 at concrete valid inputs with nonzero high limbs. -/
theorem c8_narrowing_truncates_witness :
    UValid (uint128.mk 18446744073709551615 1) ∧ IValid (int128.mk (-3) 8) ∧
      (uint128ToUInt64 (uint128.mk 18446744073709551615 1) =
          uval (uint128.mk 18446744073709551615 1) % 2 ^ 64 ∧
        (uint128ToUInt64 (uint128.mk 18446744073709551615 1) : Int) =
          (uval (uint128.mk 18446744073709551615 1) : Int) % 2 ^ 64 ∧
        (int128ToUInt64 (int128.mk (-3) 8) : Int) =
          ival (int128.mk (-3) 8) % 2 ^ 64 ∧
        uint128ToUInt64 (MakeUint128 18446744073709551615 1) = 1) :=
  ⟨by decide, by decide,
    c8_narrowing_truncates (uint128.mk 18446744073709551615 1)
      (int128.mk (-3) 8) (by decide) (by decide)⟩

/-- C10: negating the signed minimum wraps to itself, and among valid
nonzero int128 values the minimum is the only fixed point of unary
negation. -/
theorem c10_neg_min_fixed_point :
    ineg Int128Min = Int128Min ∧
      ∀ v : int128, IValid v → v ≠ MakeInt128 0 0 →
        (ineg v = v ↔ v = Int128Min) := by
  constructor
  · decide
  · intro v hv hne
    obtain ⟨vh, vl⟩ := v
    obtain ⟨h1, h2, h3⟩ := hv
    replace h1 : -(2 ^ 63) ≤ vh := h1
    replace h2 : vh < 2 ^ 63 := h2
    replace h3 : vl < 2 ^ 64 := h3
    simp only [ineg, MakeInt128, Int128Min, sext64, wrap64, not64,
      int128.mk.injEq, ne_eq, not_and] at hne ⊢
    split <;> omega

/-- Witness for C10 applying the fixed-point characterisation at a
concrete nonzero non-minimal value. -/
theorem c10_neg_min_fixed_point_witness :
    IValid (int128.mk 0 1) ∧ int128.mk 0 1 ≠ MakeInt128 0 0 ∧
      (ineg (int128.mk 0 1) = int128.mk 0 1 ↔ int128.mk 0 1 = Int128Min) :=
  ⟨by decide, by decide,
    c10_neg_min_fixed_point.2 (int128.mk 0 1) (by decide) (by decide)⟩

/-- Value semantics of the fallback uint128 addition: mod 2^128. -/
theorem uval_uadd (a b : uint128) (ha : UValid a) (hb : UValid b) :
    uval (uadd a b) = (uval a + uval b) % 2 ^ 128 := by
  obtain ⟨ah, al⟩ := a
  obtain ⟨bh, bl⟩ := b
  obtain ⟨ha1, ha2⟩ := ha
  obtain ⟨hb1, hb2⟩ := hb
  replace ha1 : ah < 2 ^ 64 := ha1
  replace ha2 : al < 2 ^ 64 := ha2
  replace hb1 : bh < 2 ^ 64 := hb1
  replace hb2 : bl < 2 ^ 64 := hb2
  simp only [uadd, AddResult, MakeUint128, wrap64, uval]
  split <;> dsimp only <;> omega

/-- The fallback uint128 addition stays within 64-bit limbs. -/
theorem uadd_valid (a b : uint128) (ha : UValid a) (hb : UValid b) :
    UValid (uadd a b) := by
  obtain ⟨ah, al⟩ := a
  obtain ⟨bh, bl⟩ := b
  simp only [uadd, AddResult, MakeUint128, wrap64, UValid]
  split <;> refine ⟨?_, ?_⟩ <;> simp only <;> omega

/-- Shifting the uint128 (0, x) left by 32 places multiplies the value by
2^32, and the result has valid limbs. -/
theorem ushl32_uval (x : Nat) (hx : x < 2 ^ 64) :
    uval (ushl (MakeUint128 0 x) 32) = x * 2 ^ 32 ∧
      UValid (ushl (MakeUint128 0 x) 32) := by
  simp only [ushl, MakeUint128, wrap64, Nat.shiftLeft_eq,
    Nat.shiftRight_eq_div_pow, uval, UValid]
  norm_num
  omega

/-- Masking a Nat with 0xffffffff keeps its low 32 bits. -/
theorem and_mask32 (x : Nat) : x &&& 4294967295 = x % 2 ^ 32 := by
  have h : (4294967295 : Nat) = 2 ^ 32 - 1 := by norm_num
  rw [h, Nat.and_pow_two_sub_one_eq_mod]

/-- C2: the fallback uint128 multiplication realises the represented
values mod 2^128, and the concrete product of 2^64 - 1 by 2 is
(1, 2^64 - 2). -/
theorem c2_mul_truncating (a b : uint128) (ha : UValid a) (hb : UValid b) :
    uval (umul a b) = (uval a * uval b) % 2 ^ 128 ∧
      umul (MakeUint128 0 18446744073709551615) (MakeUint128 0 2) =
        MakeUint128 1 18446744073709551614 := by
  refine ⟨?_, by decide⟩
  obtain ⟨A, B⟩ := a
  obtain ⟨C, D⟩ := b
  obtain ⟨hA, hB64⟩ := ha
  obtain ⟨hC, hD64⟩ := hb
  replace hA : A < 2 ^ 64 := hA
  replace hB64 : B < 2 ^ 64 := hB64
  replace hC : C < 2 ^ 64 := hC
  replace hD64 : D < 2 ^ 64 := hD64
  obtain ⟨q, r, hB, hq, hr⟩ :
      ∃ q r, B = 2 ^ 32 * q + r ∧ q < 2 ^ 32 ∧ r < 2 ^ 32 :=
    ⟨B / 2 ^ 32, B % 2 ^ 32, by omega, by omega, by omega⟩
  obtain ⟨s, t, hD, hs, ht⟩ :
      ∃ s t, D = 2 ^ 32 * s + t ∧ s < 2 ^ 32 ∧ t < 2 ^ 32 :=
    ⟨D / 2 ^ 32, D % 2 ^ 32, by omega, by omega, by omega⟩
  have hBq : B >>> 32 = q := by
    rw [Nat.shiftRight_eq_div_pow]
    omega
  have hBr : B &&& 4294967295 = r := by
    rw [and_mask32]
    omega
  have hDs : D >>> 32 = s := by
    rw [Nat.shiftRight_eq_div_pow]
    omega
  have hDt : D &&& 4294967295 = t := by
    rw [and_mask32]
    omega
  simp only [umul, hBq, hBr, hDs, hDt]
  have hqs : q * s < 2 ^ 64 :=
    lt_of_le_of_lt (Nat.mul_le_mul (by omega : q ≤ 2 ^ 32 - 1)
      (by omega : s ≤ 2 ^ 32 - 1)) (by norm_num)
  have hqt : q * t < 2 ^ 64 :=
    lt_of_le_of_lt (Nat.mul_le_mul (by omega : q ≤ 2 ^ 32 - 1)
      (by omega : t ≤ 2 ^ 32 - 1)) (by norm_num)
  have hrs : r * s < 2 ^ 64 :=
    lt_of_le_of_lt (Nat.mul_le_mul (by omega : r ≤ 2 ^ 32 - 1)
      (by omega : s ≤ 2 ^ 32 - 1)) (by norm_num)
  have hrt : r * t < 2 ^ 64 :=
    lt_of_le_of_lt (Nat.mul_le_mul (by omega : r ≤ 2 ^ 32 - 1)
      (by omega : t ≤ 2 ^ 32 - 1)) (by norm_num)
  have hv0 : UValid (MakeUint128 (wrap64 (A * D + B * C + q * s))
      (wrap64 (r * t))) := by
    constructor <;> simp only [MakeUint128, wrap64] <;> omega
  have hT1 := ushl32_uval (wrap64 (q * t)) (by simp only [wrap64]; omega)
  have hT2 := ushl32_uval (wrap64 (r * s)) (by simp only [wrap64]; omega)
  have hv1 : UValid (uadd (MakeUint128 (wrap64 (A * D + B * C + q * s))
      (wrap64 (r * t))) (ushl (MakeUint128 0 (wrap64 (q * t))) 32)) :=
    uadd_valid _ _ hv0 hT1.2
  rw [uval_uadd _ _ hv1 hT2.2, uval_uadd _ _ hv0 hT1.2, hT1.1, hT2.1]
  have key : uval (uint128.mk A B) * uval (uint128.mk C D) =
      A * C * 2 ^ 128 + (A * D + B * C + q * s) * 2 ^ 64 +
        q * t * 2 ^ 32 + r * s * 2 ^ 32 + r * t := by
    simp only [uval]
    rw [hB, hD]
    ring
  simp only [uval, MakeUint128, wrap64] at key ⊢
  omega

/-- Witness for C2 at a concrete pair of valid inputs exercising all four
partial products. -/
theorem c2_mul_truncating_witness :
    UValid (uint128.mk 2 18446744073709551615) ∧
      UValid (uint128.mk 0 4294967297) ∧
      (uval (umul (uint128.mk 2 18446744073709551615)
            (uint128.mk 0 4294967297)) =
          (uval (uint128.mk 2 18446744073709551615) *
            uval (uint128.mk 0 4294967297)) % 2 ^ 128 ∧
        umul (MakeUint128 0 18446744073709551615) (MakeUint128 0 2) =
          MakeUint128 1 18446744073709551614) :=
  ⟨by decide, by decide,
    c2_mul_truncating (uint128.mk 2 18446744073709551615)
      (uint128.mk 0 4294967297) (by decide) (by decide)⟩

/-- C4 counterexample: the debug assertion guarding the signed shift
operators rejects the amount 127, although 127 lies in [0, 127]. -/
theorem c4_assert_fails_at_127 : signedShiftAssert 127 = false := by decide

/-- C4 (amended): the debug assertion guarding int128 shifts is satisfied
exactly for the amounts in [0, 126]; the amount 127 already fails it. -/
theorem c4_assert_range (amount : Int) :
    signedShiftAssert amount = true ↔ 0 ≤ amount ∧ amount < 127 := by
  simp [signedShiftAssert]

/-- Bitwise or of disjoint words is addition: if a is a multiple of 2^k
and b lies below 2^k, the two operands occupy disjoint bit ranges. -/
theorem lor_add_of_dvd_of_lt (a b k : Nat) (ha : 2 ^ k ∣ a)
    (hb : b < 2 ^ k) : a ||| b = a + b := by
  obtain ⟨c, rfl⟩ := ha
  apply Nat.eq_of_testBit_eq
  intro i
  have hadd := Nat.testBit_mul_pow_two_add c hb i
  have hzero : (2 ^ k * c).testBit i =
      if i < k then false else c.testBit (i - k) := by
    have h0 : (0 : Nat) < 2 ^ k := Nat.two_pow_pos k
    have h1 := Nat.testBit_mul_pow_two_add c h0 i
    simpa using h1
  rw [Nat.testBit_lor, hadd, hzero]
  rcases Nat.lt_or_ge i k with hi | hi
  · simp [hi]
  · have hbi : b.testBit i = false :=
      Nat.testBit_lt_two_pow
        (lt_of_lt_of_le hb (Nat.pow_le_pow_right (by norm_num) hi))
    simp [Nat.not_lt.mpr hi, hbi]

/-- Composing two Euclidean divisions by powers of two divides by the
combined power. -/
theorem ediv_pow_ediv_pow (a : Int) (m n : Nat) :
    a / 2 ^ m / 2 ^ n = a / 2 ^ (m + n) := by
  have hm : (0 : Int) < 2 ^ m := by positivity
  have hn : (0 : Int) < 2 ^ n := by positivity
  have hmn : (0 : Int) < 2 ^ (m + n) := by positivity
  have h1 : a = 2 ^ m * (a / 2 ^ m) + a % 2 ^ m :=
    (Int.ediv_add_emod a (2 ^ m)).symm
  have h2 : a / 2 ^ m = 2 ^ n * (a / 2 ^ m / 2 ^ n) + (a / 2 ^ m) % 2 ^ n :=
    (Int.ediv_add_emod _ (2 ^ n)).symm
  have hr1 : 0 ≤ a % 2 ^ m := Int.emod_nonneg a (ne_of_gt hm)
  have hr1u : a % 2 ^ m < 2 ^ m := Int.emod_lt_of_pos a hm
  have hr2 : 0 ≤ (a / 2 ^ m) % 2 ^ n := Int.emod_nonneg _ (ne_of_gt hn)
  have hr2u : (a / 2 ^ m) % 2 ^ n < 2 ^ n := Int.emod_lt_of_pos _ hn
  have key : a = (2 ^ m * ((a / 2 ^ m) % 2 ^ n) + a % 2 ^ m) +
      (a / 2 ^ m / 2 ^ n) * 2 ^ (m + n) := by
    rw [pow_add]
    nlinarith [h1, h2]
  have hb1 : (0 : Int) ≤ 2 ^ m * ((a / 2 ^ m) % 2 ^ n) + a % 2 ^ m :=
    add_nonneg (mul_nonneg (le_of_lt hm) hr2) hr1
  have hb2 : 2 ^ m * ((a / 2 ^ m) % 2 ^ n) + a % 2 ^ m < 2 ^ (m + n) := by
    have hstep : (2 : Int) ^ m * ((a / 2 ^ m) % 2 ^ n) ≤
        2 ^ m * (2 ^ n - 1) :=
      mul_le_mul_of_nonneg_left (by omega) (le_of_lt hm)
    rw [pow_add]
    nlinarith
  conv_rhs => rw [key]
  rw [Int.add_mul_ediv_right _ _ (ne_of_gt hmn),
    Int.ediv_eq_zero_of_lt hb1 hb2, zero_add]

/-- An arithmetic shift keeps an int64 value inside the int64 range. -/
theorem sar64_range (H : Int) (m : Nat) (h1 : -(2 ^ 63) ≤ H)
    (h2 : H < 2 ^ 63) :
    -(2 ^ 63) ≤ H / 2 ^ m ∧ H / 2 ^ m < 2 ^ 63 := by
  have hc : (0 : Int) < 2 ^ m := by positivity
  constructor
  · rw [Int.le_ediv_iff_mul_le hc]
    calc (-(2 ^ 63) : Int) * 2 ^ m ≤ -(2 ^ 63) * 1 := by
          apply mul_le_mul_of_nonpos_left _ (by norm_num)
          exact_mod_cast Nat.one_le_two_pow
      _ ≤ H := by omega
  · rcases le_or_lt 0 H with hs | hs
    · exact lt_of_le_of_lt (Int.ediv_le_self _ hs) h2
    · exact lt_trans (Int.ediv_neg' hs hc) (by positivity)

/-- An arithmetic shift preserves the sign of an int64 value. -/
theorem sar64_sign (H : Int) (m : Nat) :
    (0 ≤ H → 0 ≤ H / 2 ^ m) ∧ (H < 0 → H / 2 ^ m < 0) :=
  ⟨fun h => Int.ediv_nonneg h (by positivity),
   fun h => Int.ediv_neg' h (by positivity)⟩

/-- Core identity of the signed right shift for amounts in [1, 63]: the
shifted high limb, the bits moved down from the high limb, and the
shifted low limb reassemble into the floor-divided represented value. -/
theorem shr_core (H : Int) (l : Nat) (n : Nat) (hn1 : 1 ≤ n)
    (hn2 : n ≤ 63) :
    (H / 2 ^ n) * 2 ^ 64 +
        ((H % 2 ^ n) * 2 ^ (64 - n) + ((l / 2 ^ n : Nat) : Int)) =
      (H * 2 ^ 64 + (l : Int)) / 2 ^ n := by
  have hm : n + (64 - n) = 64 := by omega
  have hp : (2 : Int) ^ 64 = 2 ^ n * 2 ^ (64 - n) := by
    rw [← pow_add, hm]
  have hne : ((2 : Int) ^ n) ≠ 0 := by positivity
  have e2 : H = 2 ^ n * (H / 2 ^ n) + H % 2 ^ n :=
    (Int.ediv_add_emod H (2 ^ n)).symm
  have e1 : (H * 2 ^ 64 + (l : Int)) / 2 ^ n =
      ((l : Int) / 2 ^ n) + H * 2 ^ (64 - n) := by
    have hrw : H * 2 ^ 64 + (l : Int) =
        (l : Int) + (H * 2 ^ (64 - n)) * 2 ^ n := by
      rw [hp]; ring
    rw [hrw, Int.add_mul_ediv_right _ _ hne]
  rw [e1]
  have hcast : ((l / 2 ^ n : Nat) : Int) = (l : Int) / 2 ^ n := by
    push_cast
    rfl
  rw [hcast, hp]
  linear_combination (-(2 ^ (64 - n)) : Int) * e2

/-- Truncating to int64 before the modular uint64 cast changes nothing. -/
theorem castToUnsigned64_sext64 (x : Int) :
    castToUnsigned64 (sext64 x) = castToUnsigned64 x := by
  simp only [castToUnsigned64, sext64]
  omega

/-- C3: the fallback signed right shift is arithmetic for every amount in
[0, 127]: the result represents the floor division of the represented
value by 2^amount (so the vacated high bits are copies of the sign bit),
and the signed minimum shifted right by 127 represents -1. -/
theorem c3_signed_shr_arithmetic :
    (∀ (v : int128) (n : Nat), IValid v → n ≤ 127 →
        ival (ishr v n) = ival v / 2 ^ n) ∧
      ival (ishr Int128Min 127) = -1 := by
  constructor
  · intro v n hv hn
    obtain ⟨H, l⟩ := v
    obtain ⟨h1, h2, h3⟩ := hv
    replace h1 : -(2 ^ 63) ≤ H := h1
    replace h2 : H < 2 ^ 63 := h2
    replace h3 : l < 2 ^ 64 := h3
    have hl0 : (0 : Int) ≤ (l : Int) := Int.ofNat_nonneg l
    have hlI : ((l : Int)) < 2 ^ 64 := by exact_mod_cast h3
    have hHp0 : 0 ≤ H % 2 ^ 64 := Int.emod_nonneg H (by norm_num)
    have hinner : (H * 2 ^ 64 + (l : Int)) / 2 ^ 64 = H := by
      rw [show H * 2 ^ 64 + (l : Int) = (l : Int) + H * 2 ^ 64 from by ring,
        Int.add_mul_ediv_right _ _ (by norm_num : ((2 : Int) ^ 64) ≠ 0),
        Int.ediv_eq_zero_of_lt hl0 hlI, zero_add]
    rcases Nat.eq_zero_or_pos n with h0 | h0
    · subst h0
      simp only [ishr, if_pos rfl, ival]
      norm_num
    rcases Nat.lt_or_ge n 63 with hlt63 | hge63
    · -- amounts in [1, 62]
      have hne0 : n ≠ 0 := by omega
      simp only [ishr, if_neg hne0, if_pos hlt63, MakeInt128, ival, sar64,
        castToUnsigned64]
      rw [Nat.shiftRight_eq_div_pow, Nat.shiftLeft_eq, wrap64]
      have hmask : ((H % 2 ^ 64).toNat * 2 ^ (64 - n)) % 2 ^ 64 =
          ((H % 2 ^ 64).toNat % 2 ^ n) * 2 ^ (64 - n) := by
        rw [show (2 : Nat) ^ 64 = 2 ^ n * 2 ^ (64 - n) from by
          rw [← pow_add]; congr 1; omega]
        exact Nat.mul_mod_mul_right _ _ _
      rw [hmask]
      have hdvd : 2 ^ (64 - n) ∣ ((H % 2 ^ 64).toNat % 2 ^ n) * 2 ^ (64 - n) :=
        dvd_mul_left _ _
      have hlt : l / 2 ^ n < 2 ^ (64 - n) := by
        rw [Nat.div_lt_iff_lt_mul (Nat.two_pow_pos n)]
        calc l < 2 ^ 64 := h3
          _ = 2 ^ (64 - n) * 2 ^ n := by rw [← pow_add]; congr 1; omega
      rw [Nat.lor_comm, lor_add_of_dvd_of_lt _ _ _ hdvd hlt]
      have hcast2 : ((((H % 2 ^ 64).toNat % 2 ^ n) * 2 ^ (64 - n) +
          l / 2 ^ n : Nat) : Int) =
          (H % 2 ^ n) * 2 ^ (64 - n) + ((l / 2 ^ n : Nat) : Int) := by
        rw [Nat.cast_add, Nat.cast_mul, Int.natCast_mod, Nat.cast_pow,
          Nat.cast_pow, Int.toNat_of_nonneg hHp0]
        simp only [Nat.cast_ofNat]
        rw [Int.emod_emod_of_dvd H (pow_dvd_pow 2 (by omega : n ≤ 64))]
      rw [hcast2]
      exact shr_core H l n (by omega) (by omega)
    rcases Nat.eq_or_lt_of_le hge63 with h63 | hgt63
    · -- amount exactly 63
      subst h63
      rw [ishr, if_neg (show ¬ ((63 : Nat) = 0) by decide),
        if_neg (show ¬ ((63 : Nat) < 63) by decide),
        if_pos (rfl : (63 : Nat) = 63), castToUnsigned64_sext64]
      simp only [MakeInt128, ival, sar64, castToUnsigned64]
      rw [Nat.shiftRight_eq_div_pow, Nat.shiftRight_eq_div_pow]
      have hdvd : (2 : Nat) ^ 1 ∣ ((2 * H) % 2 ^ 64).toNat := by omega
      have hlt : l / 2 ^ 32 / 2 ^ 31 < 2 ^ 1 := by omega
      rw [lor_add_of_dvd_of_lt _ _ 1 hdvd hlt]
      omega
    rcases Nat.lt_or_ge n 127 with hlt127 | hge127
    · -- amounts in [64, 126]
      have hne0 : n ≠ 0 := by omega
      have hnlt : ¬ n < 63 := by omega
      have hne63 : n ≠ 63 := by omega
      have hnge127 : ¬ 127 ≤ n := by omega
      simp only [ishr, if_neg hne0, if_neg hnlt, if_neg hne63,
        if_neg hnge127, MakeInt128, ival, sar64, castToUnsigned64]
      have htgt : (H * 2 ^ 64 + (l : Int)) / 2 ^ n = H / 2 ^ (n - 64) := by
        have e := ediv_pow_ediv_pow (H * 2 ^ 64 + (l : Int)) 64 (n - 64)
        rw [show 64 + (n - 64) = n from by omega] at e
        rw [← e, hinner]
      rw [htgt]
      have hS := sar64_range H (n - 64) h1 h2
      have hsg := sar64_sign H (n - 64)
      have hsign : (0 ≤ H ∧ 0 ≤ H / 2 ^ (n - 64)) ∨
          (H < 0 ∧ H / 2 ^ (n - 64) < 0) := by
        rcases le_or_lt 0 H with hh | hh
        · exact Or.inl ⟨hh, hsg.1 hh⟩
        · exact Or.inr ⟨hh, hsg.2 hh⟩
      omega
    · -- amount 127 (the only value of [0,127] in this band)
      have hn127 : n = 127 := by omega
      subst hn127
      rw [ishr, if_neg (show ¬ ((127 : Nat) = 0) by decide),
        if_neg (show ¬ ((127 : Nat) < 63) by decide),
        if_neg (show ¬ ((127 : Nat) = 63) by decide),
        if_pos (show (127 : Nat) ≤ 127 by decide)]
      simp only [MakeInt128, ival, sar64, castToUnsigned64]
      omega
  · decide

/-- Witness for C3 applying the arithmetic-shift law to the signed
minimum at amount 127. -/
theorem c3_signed_shr_arithmetic_witness :
    IValid Int128Min ∧ 127 ≤ 127 ∧
      ival (ishr Int128Min 127) = ival Int128Min / 2 ^ 127 :=
  ⟨by decide, by decide,
    c3_signed_shr_arithmetic.1 Int128Min 127 (by decide) (by decide)⟩

end Int128Spec
